import Mathlib

/-
Verification of the FileObserver JNI core
(src/fileobserver/src/main/jni/android_util_FileObserver.cpp).

The embedding models the four native entry points:

  * android_os_fileobserver_observe : the blocking read / decode / dispatch
    loop.  The inotify byte stream is modelled as a list of byte values
    (each entry is a value of one char of event_buf); struct inotify_event
    is read field by field at explicit little-endian offsets, exactly as
    the direct pointer cast in the source does on the Android targets
    (wd at offset 0 as int32, mask at 4, cookie at 8, len at 12, name at 16,
    sizeof(struct inotify_event) = 16).
  * android_os_fileobserver_startWatching / stopWatching / release : thin
    wrappers around inotify_add_watch / inotify_rm_watch / close; the OS
    calls they issue are recorded as an explicit call list.

Machine integers: the C code stores sizeof(*event) + event->len into an
`int`; this is modelled by toInt32 (reduction mod 2^32, then signed
reinterpretation).  The inner decode loop of the source can fail to make
progress when that value is not positive, so it is modelled with explicit
fuel; the Bool component of its result is true when the loop exited through
its own guard (num_bytes < header size) and false when the fuel ran out
while the loop was still running.

errno: read(2) sets errno on failure and leaves it unchanged on success.
The loop state therefore carries one Bool, "errno currently holds EINTR",
set by every failing read and untouched by successful ones; this is exactly
the global the source consults after seeing a short byte count.

Reads past the bytes that the modelled buffer holds (possible in the source
for a truncated record, where the name pointer runs into stale or
out-of-bounds memory) return the default byte 0 in the model.
-/

namespace FileObserver

/-- sizeof(struct inotify_event): int32 wd, uint32 mask, uint32 cookie,
uint32 len. -/
def headerSize : Nat := 16

/-- one char of event_buf; positions outside the list read as 0. -/
def byteAt (buf : List Nat) (i : Nat) : Nat := buf.getD i 0

/-- little-endian uint32 load at byte offset i, as done by the struct cast
in the source. -/
def readU32 (buf : List Nat) (i : Nat) : Nat :=
  byteAt buf i + 2 ^ 8 * byteAt buf (i + 1) + 2 ^ 16 * byteAt buf (i + 2) +
    2 ^ 24 * byteAt buf (i + 3)

/-- uint32 load at a possibly negative offset (negative access is undefined
behaviour in the source; the model reads 0 there). -/
def readU32I (buf : List Nat) (i : Int) : Nat :=
  if 0 ≤ i then readU32 buf i.toNat else 0

/-- reinterpret a natural number as a signed 32-bit int, as the store into
`int event_size` does. -/
def toInt32 (n : Nat) : Int :=
  if n % 2 ^ 32 < 2 ^ 31 then ((n % 2 ^ 32 : Nat) : Int)
  else ((n % 2 ^ 32 : Nat) : Int) - 2 ^ 32

/-- the NUL-terminated byte string starting at offset i: what
NewStringUTF(event->name) reads. -/
def cStringAt (buf : List Nat) (i : Int) : List Nat :=
  if 0 ≤ i then (buf.drop i.toNat).takeWhile (fun b => b ≠ 0) else []

/-- the triple passed to the onEvent callback: event->wd, event->mask and
the name string (NULL when event->len == 0). -/
structure DecodedEvent where
  wd : Int
  mask : Nat
  name : Option (List Nat)
deriving DecidableEq

/-- the inner while loop of android_os_fileobserver_observe: while
num_bytes >= sizeof(*event), read the record at event_pos, dispatch it, and
advance by event_size = (int)(sizeof(*event) + event->len).  Fuel bounds
the number of iterations; the Bool is true when the loop exited through its
guard. -/
def decodeLoop (buf : List Nat) : Nat → Int → Int → List DecodedEvent × Bool
  | 0, _, _ => ([], false)
  | fuel + 1, numBytes, eventPos =>
    if (headerSize : Int) ≤ numBytes then
      let wd := toInt32 (readU32I buf eventPos)
      let mask := readU32I buf (eventPos + 4)
      let len := readU32I buf (eventPos + 12)
      let name : Option (List Nat) :=
        if 0 < len then some (cStringAt buf (eventPos + 16)) else none
      let eventSize : Int := toInt32 (headerSize + len)
      let rest := decodeLoop buf fuel (numBytes - eventSize) (eventPos + eventSize)
      (⟨wd, mask, name⟩ :: rest.1, rest.2)
    else
      ([], true)

/-- fuel that suffices for any buffer whose records all make progress:
one iteration per header-sized slice plus the final guard check. -/
def decodeFuel (n : Nat) : Nat := n / headerSize + 1

/-- one pass of the inner loop over the num_bytes bytes returned by a
single read, starting at event_pos = 0. -/
def decodeBuf (buf : List Nat) : List DecodedEvent × Bool :=
  decodeLoop buf (decodeFuel buf.length) (buf.length : Int) 0

/-- outcome of one read(2) call on the inotify fd: a buffer of bytes on
success, or a failure whose errno either is or is not EINTR. -/
inductive ReadResult
  | ok (buf : List Nat)
  | fail (eintr : Bool)

/-- the outer while(1) loop of android_os_fileobserver_observe, driven by a
finite trace of read outcomes.  The Bool argument is the current value of
the "errno == EINTR" test: failing reads set it, successful reads leave it
unchanged (read(2) does not touch errno on success).  The sink argument
tells, per dispatched event, whether the Java onEvent callback raised
(the source describes and clears such an exception and carries on).
Result: some (events dispatched in order, number of sink exceptions caught,
whether the function returned through its short-read exit) — or none when
the inner decode loop failed to make progress (the source would spin
forever inside one buffer there).  A result with the Bool false means the
read trace was exhausted while the loop was still going. -/
def observe (sink : DecodedEvent → Bool) :
    List ReadResult → Bool → Option (List DecodedEvent × Nat × Bool)
  | [], _ => some ([], 0, false)
  | ReadResult.fail e :: rest, _ =>
    if e then observe sink rest true
    else some ([], 0, true)
  | ReadResult.ok buf :: rest, errnoEintr =>
    if buf.length < headerSize then
      if errnoEintr then observe sink rest errnoEintr
      else some ([], 0, true)
    else
      match decodeBuf buf with
      | (_, false) => none
      | (evs, true) =>
        match observe sink rest errnoEintr with
        | none => none
        | some (evs2, f2, st) =>
          some (evs ++ evs2, evs.countP (fun ev => sink ev) + f2, st)

/-- one raw inotify record as the kernel lays it out: header fields plus
the name bytes (name.length is the wire value of the len field). -/
structure RawRecord where
  wd : Nat
  mask : Nat
  cookie : Nat
  name : List Nat

/-- little-endian bytes of a uint32. -/
def encodeU32 (n : Nat) : List Nat :=
  [n % 256, n / 2 ^ 8 % 256, n / 2 ^ 16 % 256, n / 2 ^ 24 % 256]

/-- wire image of one record: 16-byte header followed by the name bytes. -/
def encodeRecord (r : RawRecord) : List Nat :=
  encodeU32 r.wd ++ encodeU32 r.mask ++ encodeU32 r.cookie ++
    encodeU32 r.name.length ++ r.name

/-- records packed back to back, as read(2) returns them. -/
def encodeRecords (rs : List RawRecord) : List Nat :=
  (rs.map encodeRecord).flatten

/-- a well-formed raw record: header fields fit their wire width, the
record size fits a signed 32-bit int, the name is made of bytes, and a
nonempty name carries its NUL terminator inside the declared length (the
kernel NUL-pads every nonempty name). -/
def RawRecord.wf (r : RawRecord) : Prop :=
  r.wd < 2 ^ 32 ∧ r.mask < 2 ^ 32 ∧ r.cookie < 2 ^ 32 ∧
    r.name.length + headerSize < 2 ^ 31 ∧
    (∀ b ∈ r.name, b < 256) ∧ (r.name ≠ [] → 0 ∈ r.name)

instance (r : RawRecord) : Decidable r.wf := by
  unfold RawRecord.wf; infer_instance

/-- the event the source dispatches for one well-formed record. -/
def eventOf (r : RawRecord) : DecodedEvent :=
  ⟨toInt32 r.wd, r.mask,
    if 0 < r.name.length then some (r.name.takeWhile (fun b => b ≠ 0))
    else none⟩

/-- an OS call issued by one of the thin JNI wrappers. -/
inductive OsCall
  | addWatch (fd : Int) (path : List Nat) (mask : Nat)
  | rmWatch (fd : Int) (wfd : Nat)
  | closeFd (fd : Int)
deriving DecidableEq

/-- android_os_fileobserver_startWatching: res = -1; only when fd >= 0 does
it read the path chars and call inotify_add_watch.  osAdd is the opaque OS
response; the second component lists the OS calls issued. -/
def startWatching (osAdd : Int → List Nat → Nat → Int) (fd : Int)
    (path : List Nat) (mask : Nat) : Int × List OsCall :=
  if 0 ≤ fd then (osAdd fd path mask, [OsCall.addWatch fd path mask])
  else (-1, [])

/-- Modelled from the spec: the OS side of inotify_rm_watch, which is not
part of this repository.  Per the removeWatch contract, a registered handle
is removed from the watch table; an unknown handle leaves the table
unchanged and reports an error (-1 / EINVAL). -/
def inotifyRmWatch (table : List Nat) (wfd : Nat) : List Nat × Int :=
  if wfd ∈ table then (table.erase wfd, 0) else (table, -1)

/-- android_os_fileobserver_stopWatching: calls inotify_rm_watch(fd, wfd)
and discards its result (the wrapper returns void).  The resulting watch
table is the state after the call. -/
def stopWatching (fd : Int) (table : List Nat) (wfd : Nat) : List Nat :=
  (inotifyRmWatch table wfd).1

/-- the release entry point: if (fd >= 0) close(fd); — the list of OS calls
it issues. -/
def release (fd : Int) : List OsCall :=
  if 0 ≤ fd then [OsCall.closeFd fd] else []

/-- two well-formed records used as a concrete decode input. -/
def wrecs : List RawRecord := [⟨1, 5, 0, [97, 0]⟩, ⟨2, 7, 3, []⟩]

/-- a record whose name holds an embedded NUL at position 2. -/
def recNul : RawRecord := ⟨1, 2, 0, [97, 98, 0, 99]⟩

/-- a record with nameLength 0. -/
def recNoName : RawRecord := ⟨3, 4, 0, []⟩

/-- a 16-byte read: one header declaring nameLength 5, so the record claims
21 bytes while only 16 were read — a truncated record. -/
def truncBuf : List Nat := [1, 0, 0, 0, 2, 0, 0, 0, 0, 0, 0, 0, 5, 0, 0, 0]

/-- a 16-byte read whose len field is 2^32 - 16: the 32-bit record size
16 + len wraps to 0, so event_pos and num_bytes never change. -/
def badBuf : List Nat :=
  [0, 0, 0, 0, 0, 0, 0, 0, 0, 0, 0, 0, 240, 255, 255, 255]

/-- an all-zero 32-byte buffer. -/
def zeroBuf : List Nat := List.replicate 32 0

/-- a sink whose callback never raises. -/
def sinkQuiet : DecodedEvent → Bool := fun _ => false

/-- a well-formed record with a two-byte name. -/
def goodRec : RawRecord := ⟨9, 8, 0, [104, 105, 0]⟩

/-- read trace: an interrupted read, then a successful 3-byte read (shorter
than one header), then a full record. -/
def shortReadTrace : List ReadResult :=
  [ReadResult.fail true, ReadResult.ok [1, 2, 3],
    ReadResult.ok (encodeRecord goodRec)]

/-- an OS add-watch response that always returns handle 7. -/
def osAddConst : Int → List Nat → Nat → Int := fun _ _ _ => 7

lemma byteAt_drop (buf : List Nat) (k i : Nat) : byteAt (buf.drop k) i = byteAt buf (k + i) := by
  simp [byteAt, List.getD_eq_getElem?_getD, List.getElem?_drop]

lemma readU32_drop (buf : List Nat) (k i : Nat) : readU32 (buf.drop k) i = readU32 buf (k + i) := by
  simp [readU32, byteAt_drop, Nat.add_assoc]

lemma readU32_append (a l : List Nat) (i : Nat) :
    readU32 (a ++ l) (a.length + i) = readU32 l i := by
  rw [← readU32_drop, List.drop_left]

lemma readU32_encodeU32 (n : Nat) (l : List Nat) : readU32 (encodeU32 n ++ l) 0 = n % 2 ^ 32 := by
  simp [readU32, byteAt, encodeU32]
  omega

lemma encodeU32_length (n : Nat) : (encodeU32 n).length = 4 := by simp [encodeU32]

lemma encodeRecord_length (r : RawRecord) :
    (encodeRecord r).length = headerSize + r.name.length := by
  simp [encodeRecord, encodeU32, headerSize]
  omega

lemma readU32_record_wd (r : RawRecord) (l : List Nat) :
    readU32 (encodeRecord r ++ l) 0 = r.wd % 2 ^ 32 := by
  simp only [encodeRecord, List.append_assoc]
  exact readU32_encodeU32 _ _

lemma readU32_record_mask (r : RawRecord) (l : List Nat) :
    readU32 (encodeRecord r ++ l) 4 = r.mask % 2 ^ 32 := by
  simp only [encodeRecord, List.append_assoc]
  have h4 : (4 : Nat) = (encodeU32 r.wd).length + 0 := by simp [encodeU32_length]
  rw [h4, readU32_append, readU32_encodeU32]

lemma readU32_record_len (r : RawRecord) (l : List Nat) :
    readU32 (encodeRecord r ++ l) 12 = r.name.length % 2 ^ 32 := by
  simp only [encodeRecord, List.append_assoc]
  have h4 : (12 : Nat) = (encodeU32 r.wd).length + 8 := by simp [encodeU32_length]
  rw [h4, readU32_append]
  have h8 : (8 : Nat) = (encodeU32 r.mask).length + 4 := by simp [encodeU32_length]
  rw [h8, readU32_append]
  have h0 : (4 : Nat) = (encodeU32 r.cookie).length + 0 := by simp [encodeU32_length]
  rw [h0, readU32_append, readU32_encodeU32]

lemma drop_record (r : RawRecord) (l : List Nat) :
    (encodeRecord r ++ l).drop headerSize = r.name ++ l := by
  simp [encodeRecord, encodeU32, headerSize]

lemma encodeRecords_nil : encodeRecords [] = [] := by simp [encodeRecords]

lemma encodeRecords_cons (r : RawRecord) (rs : List RawRecord) :
    encodeRecords (r :: rs) = encodeRecord r ++ encodeRecords rs := by
  simp [encodeRecords]

lemma toInt32_of_lt {n : Nat} (h : n < 2 ^ 31) : toInt32 n = (n : Int) := by
  have h32 : n % 2 ^ 32 = n := Nat.mod_eq_of_lt (by omega)
  simp only [toInt32, h32]
  rw [if_pos h]

lemma readU32I_nat (buf : List Nat) (i : Int) (h : 0 ≤ i) :
    readU32I buf i = readU32 buf i.toNat := if_pos h

lemma takeWhile_append_left {a : List Nat} (b : List Nat) (h : 0 ∈ a) :
    (a ++ b).takeWhile (fun x => x ≠ 0) = a.takeWhile (fun x => x ≠ 0) := by
  induction a with
  | nil => simp at h
  | cons x xs ih =>
    by_cases hx : x = 0
    · subst hx
      simp [List.takeWhile_cons]
    · have h' : 0 ∈ xs := by
        rcases List.mem_cons.mp h with h0 | h0
        · exact absurd h0.symm hx
        · exact h0
      simp only [List.cons_append]
      rw [List.takeWhile_cons_of_pos (by simp [hx]), List.takeWhile_cons_of_pos (by simp [hx])]
      rw [ih h']

lemma takeWhile_eq_take_first_zero :
    ∀ (l : List Nat) (p : Nat), p < l.length → l.getD p 0 = 0 →
      (∀ q, q < p → l.getD q 0 ≠ 0) →
      l.takeWhile (fun b => b ≠ 0) = l.take p := by
  intro l
  induction l with
  | nil => intro p hp _ _; simp at hp
  | cons x xs ih =>
    intro p hp h0 hq
    cases p with
    | zero =>
      have hx : x = 0 := by simpa using h0
      subst hx
      rw [List.takeWhile_cons_of_neg (by simp)]
      simp
    | succ p' =>
      have hx : x ≠ 0 := by simpa using hq 0 (Nat.succ_pos _)
      rw [List.takeWhile_cons_of_pos (by simp [hx]), List.take_succ_cons]
      rw [ih p' (by simpa using hp) (by simpa using h0)
        (fun q hq' => by simpa using hq (q + 1) (by omega))]

lemma readU32I_append_zero (pre l : List Nat) :
    readU32I (pre ++ l) (pre.length : Int) = readU32 l 0 := by
  rw [readU32I_nat _ _ (Int.natCast_nonneg _), Int.toNat_natCast]
  have := readU32_append pre l 0
  simpa using this

lemma readU32I_shift (pre l : List Nat) (c : Int) (hc : 0 ≤ c) :
    readU32I (pre ++ l) ((pre.length : Int) + c) = readU32 l c.toNat := by
  rw [readU32I_nat _ _ (by omega)]
  have h : ((pre.length : Int) + c).toNat = pre.length + c.toNat := by omega
  rw [h, readU32_append]

lemma readU32I_app4 (pre l : List Nat) :
    readU32I (pre ++ l) ((pre.length : Int) + 4) = readU32 l 4 := by
  simpa using readU32I_shift pre l 4 (by norm_num)

lemma readU32I_app12 (pre l : List Nat) :
    readU32I (pre ++ l) ((pre.length : Int) + 12) = readU32 l 12 := by
  simpa using readU32I_shift pre l 12 (by norm_num)

lemma cStringAt_shift (pre l : List Nat) (c : Int) (hc : 0 ≤ c) :
    cStringAt (pre ++ l) ((pre.length : Int) + c) = cStringAt l c := by
  unfold cStringAt
  rw [if_pos (by omega), if_pos hc]
  have h : ((pre.length : Int) + c).toNat = pre.length + c.toNat := by omega
  rw [h]
  simp [List.drop_append]

lemma cStringAt_app16 (pre l : List Nat) :
    cStringAt (pre ++ l) ((pre.length : Int) + 16) = cStringAt l 16 := by
  simpa using cStringAt_shift pre l 16 (by norm_num)

lemma cStringAt_record (r : RawRecord) (l : List Nat) :
    cStringAt (encodeRecord r ++ l) (16 : Int) =
      (r.name ++ l).takeWhile (fun b => b ≠ 0) := by
  unfold cStringAt
  rw [if_pos (by norm_num)]
  have h16 : ((16 : Int)).toNat = headerSize := rfl
  rw [h16, drop_record]

lemma decodeLoop_packed :
    ∀ (rs : List RawRecord) (fuel : Nat) (pre tail : List Nat),
      (∀ r ∈ rs, r.wf) → rs.length < fuel →
      decodeLoop (pre ++ (encodeRecords rs ++ tail)) fuel
        ((encodeRecords rs).length : Int) (pre.length : Int) =
        (rs.map eventOf, true) := by
  intro rs
  induction rs with
  | nil =>
    intro fuel pre tail _ hfuel
    cases fuel with
    | zero => omega
    | succ f => simp [encodeRecords_nil, decodeLoop, headerSize]
  | cons r rs ih =>
    intro fuel pre tail hwf hfuel
    cases fuel with
    | zero => omega
    | succ f =>
    obtain ⟨hwd, hmask, hcookie, hlen, hbytes, hnul⟩ := hwf r (List.mem_cons_self r rs)
    have hwfs : ∀ x ∈ rs, x.wf := fun x hx => hwf x (List.mem_cons_of_mem _ hx)
    have hflen : rs.length < f := by
      have := Nat.lt_of_succ_lt_succ hfuel
      simpa using this
    rw [encodeRecords_cons, List.append_assoc, List.length_append]
    simp only [decodeLoop]
    have hg : (headerSize : Int) ≤
        (((encodeRecord r).length + (encodeRecords rs).length : Nat) : Int) := by
      rw [encodeRecord_length]
      push_cast
      omega
    rw [if_pos hg]
    rw [readU32I_append_zero, readU32I_app4, readU32I_app12, cStringAt_app16]
    rw [readU32_record_wd, readU32_record_mask, readU32_record_len]
    rw [Nat.mod_eq_of_lt hwd, Nat.mod_eq_of_lt hmask,
      Nat.mod_eq_of_lt (show r.name.length < 2 ^ 32 by
        have : (headerSize : Nat) = 16 := rfl
        omega)]
    rw [cStringAt_record]
    rw [toInt32_of_lt (show headerSize + r.name.length < 2 ^ 31 by
      have : (headerSize : Nat) = 16 := rfl
      omega)]
    have harith : ((((encodeRecord r).length + (encodeRecords rs).length : Nat)) : Int) -
        ((headerSize + r.name.length : Nat) : Int) = ((encodeRecords rs).length : Int) := by
      rw [encodeRecord_length]
      push_cast
      ring
    rw [harith]
    have hpos : (pre.length : Int) + ((headerSize + r.name.length : Nat) : Int) =
        (((pre ++ encodeRecord r).length : Nat) : Int) := by
      rw [List.length_append, encodeRecord_length]
      push_cast
      ring
    rw [hpos]
    have hrec := ih f (pre ++ encodeRecord r) tail hwfs hflen
    rw [List.append_assoc] at hrec
    rw [hrec]
    by_cases hn : r.name = []
    · simp [eventOf, hn]
    · have h0 : 0 ∈ r.name := hnul hn
      have hL : 0 < r.name.length := List.length_pos.mpr hn
      simp [eventOf, hL]
      simpa using takeWhile_append_left (encodeRecords rs ++ tail) h0

lemma encodeRecords_length_le (rs : List RawRecord) :
    headerSize * rs.length ≤ (encodeRecords rs).length := by
  have hhs : (headerSize : Nat) = 16 := rfl
  induction rs with
  | nil => simp [encodeRecords_nil]
  | cons r rs ih =>
    rw [encodeRecords_cons, List.length_append, encodeRecord_length]
    simp only [List.length_cons, hhs] at ih ⊢
    omega

lemma decodeBuf_encodeRecord (r : RawRecord) (h : r.wf) :
    decodeBuf (encodeRecord r) = ([eventOf r], true) := by
  have hfuel : (1 : Nat) < decodeFuel (encodeRecord r).length := by
    have hhs : (headerSize : Nat) = 16 := rfl
    simp [decodeFuel, encodeRecord_length, hhs]
  have hp := decodeLoop_packed [r] (decodeFuel (encodeRecord r).length) [] []
    (by simpa using h) (by simpa using hfuel)
  rw [encodeRecords_cons, encodeRecords_nil, List.append_nil] at hp
  simpa [decodeBuf] using hp

lemma decodeLoop_bound (buf : List Nat) :
    ∀ (fuel : Nat) (numBytes pos : Int),
      (∀ p, p < buf.length → readU32 buf (p + 12) + headerSize < 2 ^ 31) →
      0 ≤ pos → pos + numBytes ≤ (buf.length : Int) →
      numBytes.toNat < headerSize * fuel →
      (decodeLoop buf fuel numBytes pos).2 = true ∧
        headerSize * (decodeLoop buf fuel numBytes pos).1.length ≤ numBytes.toNat := by
  have hhs : (headerSize : Nat) = 16 := rfl
  intro fuel
  induction fuel with
  | zero =>
    intro numBytes pos _ _ _ hf
    rw [hhs] at hf
    omega
  | succ f ihf =>
    intro numBytes pos hlen hpos hbound hf
    by_cases hg : (headerSize : Int) ≤ numBytes
    · have hgi : ((headerSize : Nat) : Int) ≤ numBytes := by exact_mod_cast hg
      rw [hhs] at hgi
      simp only [decodeLoop]
      rw [if_pos hg]
      have hp16 : pos.toNat < buf.length := by omega
      have hlenv := hlen pos.toNat hp16
      have hri : readU32I buf (pos + 12) = readU32 buf (pos.toNat + 12) := by
        rw [readU32I_nat _ _ (by omega)]
        congr 1
        omega
      rw [hri]
      have hes : toInt32 (headerSize + readU32 buf (pos.toNat + 12)) =
          ((headerSize + readU32 buf (pos.toNat + 12) : Nat) : Int) :=
        toInt32_of_lt (by omega)
      rw [hes]
      have hih := ihf (numBytes - ((headerSize + readU32 buf (pos.toNat + 12) : Nat) : Int))
        (pos + ((headerSize + readU32 buf (pos.toNat + 12) : Nat) : Int))
        hlen (by simp only [hhs]; omega) (by simp only [hhs]; omega)
        (by simp only [hhs] at hf ⊢; omega)
      refine ⟨by simpa using hih.1, ?_⟩
      have h2 := hih.2
      simp only [List.length_cons]
      simp only [hhs] at h2 ⊢
      omega
    · simp only [decodeLoop]
      rw [if_neg hg]
      simp

lemma observe_proj_indep (s₁ s₂ : DecodedEvent → Bool) (reads : List ReadResult) :
    ∀ e : Bool, (observe s₁ reads e).map (fun r => (r.1, r.2.2)) =
      (observe s₂ reads e).map (fun r => (r.1, r.2.2)) := by
  induction reads with
  | nil => intro e; simp [observe]
  | cons r rest ih =>
    intro e
    cases r with
    | fail b =>
      cases b
      · simp [observe]
      · simpa [observe] using ih true
    | ok buf =>
      by_cases hs : buf.length < headerSize
      · cases e
        · simp [observe, hs]
        · simpa [observe, hs] using ih true
      · rcases hdb : decodeBuf buf with ⟨evs, done⟩
        cases done
        · simp [observe, hs, hdb]
        · have hih := ih e
          cases h1 : observe s₁ rest e with
          | none =>
            cases h2 : observe s₂ rest e with
            | none => simp [observe, hs, hdb, h1, h2]
            | some v => rw [h1, h2] at hih; simp at hih
          | some v1 =>
            cases h2 : observe s₂ rest e with
            | none => rw [h1, h2] at hih; simp at hih
            | some v2 =>
              rw [h1, h2] at hih
              simp at hih
              simp [observe, hs, hdb, h1, h2, hih.1, hih.2]

lemma observe_failures_eq (s : DecodedEvent → Bool) (reads : List ReadResult) :
    ∀ e : Bool, (observe s reads e).map (fun r => r.2.1) =
      (observe s reads e).map (fun r => r.1.countP (fun ev => s ev)) := by
  induction reads with
  | nil => intro e; simp [observe]
  | cons r rest ih =>
    intro e
    cases r with
    | fail b =>
      cases b
      · simp [observe]
      · simpa [observe] using ih true
    | ok buf =>
      by_cases hs : buf.length < headerSize
      · cases e
        · simp [observe, hs]
        · simpa [observe, hs] using ih true
      · rcases hdb : decodeBuf buf with ⟨evs, done⟩
        cases done
        · simp [observe, hs, hdb]
        · have hih := ih e
          cases h1 : observe s rest e with
          | none => simp [observe, hs, hdb, h1]
          | some v =>
            rw [h1] at hih
            simp at hih
            simp [observe, hs, hdb, h1, List.countP_append, hih]

/-- Claim C1: for a buffer holding N well-formed raw records packed back to
back, the decode loop of observe dispatches exactly N events, in the order
the records appear, consuming each record exactly once — the cursor advances
by header size + nameLength per record, so the decode of the packed buffer
is exactly the per-record event list and the loop exits through its guard. -/
theorem c1_decoder_exact (rs : List RawRecord) (h : ∀ r ∈ rs, r.wf) :
    decodeBuf (encodeRecords rs) = (rs.map eventOf, true) := by
  have hlen := encodeRecords_length_le rs
  have hhs : (headerSize : Nat) = 16 := rfl
  have hf : rs.length < decodeFuel (encodeRecords rs).length := by
    simp only [decodeFuel, hhs] at *
    omega
  have hp := decodeLoop_packed rs (decodeFuel (encodeRecords rs).length) [] [] h hf
  simpa [decodeBuf] using hp

/-- concrete instance of the C1 theorem on two records. -/
theorem c1_witness : decodeBuf (encodeRecords wrecs) = (wrecs.map eventOf, true) :=
  c1_decoder_exact wrecs (by decide)

/-- Claim C2, behaviour of the code at the failing input: a single 16-byte
read holding one header that declares nameLength 5 (record total 21 bytes,
only 16 available) still produces one dispatched event — the truncated
record IS interpreted, with its name read from beyond the bytes returned by
read; the inner loop then exits only because the remaining count went
negative. -/
theorem c2_truncated_record_dispatched :
    decodeBuf truncBuf = ([⟨1, 2, some []⟩], true) ∧ truncBuf.length = headerSize := by
  constructor
  · decide
  · decide

/-- Claim C3: a record with nameLength 0 is dispatched with a null name,
and a record with nameLength k > 0 holding an embedded NUL at position
p < k is dispatched with the name truncated at that first NUL (length p). -/
theorem c3_name_decoding (r : RawRecord) (h : r.wf) :
    (r.name = [] →
      decodeBuf (encodeRecord r) = ([⟨toInt32 r.wd, r.mask, none⟩], true)) ∧
    (∀ p, p < r.name.length → r.name.getD p 0 = 0 →
      (∀ q, q < p → r.name.getD q 0 ≠ 0) →
      decodeBuf (encodeRecord r) =
        ([⟨toInt32 r.wd, r.mask, some (r.name.take p)⟩], true)) := by
  have hk := decodeBuf_encodeRecord r h
  constructor
  · intro hn
    rw [hk]
    simp [eventOf, hn]
  · intro p hp h0 hq
    rw [hk]
    have hpos : 0 < r.name.length := by omega
    simp only [eventOf, if_pos hpos]
    rw [takeWhile_eq_take_first_zero r.name p hp h0 hq]

/-- concrete instance of the C3 theorem: an empty name and a name with an
embedded NUL at position 2. -/
theorem c3_witness :
    decodeBuf (encodeRecord recNoName) =
      ([⟨toInt32 recNoName.wd, recNoName.mask, none⟩], true) ∧
    decodeBuf (encodeRecord recNul) =
      ([⟨toInt32 recNul.wd, recNul.mask, some (recNul.name.take 2)⟩], true) :=
  ⟨(c3_name_decoding recNoName (by decide)).1 (by decide),
    (c3_name_decoding recNul (by decide)).2 2 (by decide) (by decide) (by decide)⟩

/-- Claim C4: a read that fails with EINTR is retried transparently — the
loop behaves exactly as if it restarted on the remaining trace, with no
event and no error for that iteration — while a read failure with any other
errno is never retried: the loop returns at once. -/
theorem c4_eintr_retried (sink : DecodedEvent → Bool) (rest : List ReadResult)
    (e : Bool) :
    observe sink (ReadResult.fail true :: rest) e = observe sink rest true ∧
    observe sink (ReadResult.fail false :: rest) e = some ([], 0, true) := by
  constructor <;> simp [observe]

/-- Claim C5: a sink callback that raises is caught and logged and the loop
continues: the events dispatched and the termination behaviour of observe
are identical for any two sinks, and the number of logged sink failures is
exactly the count of dispatched events on which the sink raised. -/
theorem c5_sink_isolated :
    (∀ (s₁ s₂ : DecodedEvent → Bool) (reads : List ReadResult) (e : Bool),
      (observe s₁ reads e).map (fun r => (r.1, r.2.2)) =
        (observe s₂ reads e).map (fun r => (r.1, r.2.2))) ∧
    (∀ (s : DecodedEvent → Bool) (reads : List ReadResult) (e : Bool),
      (observe s reads e).map (fun r => r.2.1) =
        (observe s reads e).map (fun r => r.1.countP (fun ev => s ev))) :=
  ⟨fun s₁ s₂ reads e => observe_proj_indep s₁ s₂ reads e,
    fun s reads e => observe_failures_eq s reads e⟩

/-- Claim C6 counterexample: after an interrupted read set errno to EINTR,
a successful 3-byte read (shorter than one header, and not itself an
interruption) does NOT make the loop log and return — the loop retries,
re-enters, and dispatches the event of a later read, ending with the trace
exhausted rather than stopped. -/
theorem c6_counterexample :
    observe sinkQuiet shortReadTrace false =
      some ([⟨9, 8, some [104, 105]⟩], 0, false) ∧
    observe sinkQuiet shortReadTrace false ≠ some ([], 0, true) := by
  constructor
  · decide
  · decide

/-- Claim C6 as amended: a successful read of fewer bytes than the header
size makes the loop log and return — dispatching no event, closing nothing —
provided errno does not currently hold EINTR; and a read that fails with an
errno other than EINTR always makes the loop log and return. -/
theorem c6_short_read_stops (sink : DecodedEvent → Bool) (rest : List ReadResult)
    (buf : List Nat) (e : Bool) :
    (buf.length < headerSize →
      observe sink (ReadResult.ok buf :: rest) false = some ([], 0, true)) ∧
    observe sink (ReadResult.fail false :: rest) e = some ([], 0, true) := by
  constructor
  · intro hb
    simp [observe, hb]
  · simp [observe]

/-- concrete instance of the amended C6 theorem. -/
theorem c6_witness :
    observe sinkQuiet [ReadResult.ok [1, 2, 3]] false = some ([], 0, true) :=
  (c6_short_read_stops sinkQuiet [] [1, 2, 3] false).1 (by decide)

/-- Claim C7: removing a watch handle that was never registered is a silent
no-op — stopWatching discards the error of inotify_rm_watch and the watch
table is left exactly as it was, for every channel and handle value. -/
theorem c7_unknown_handle_noop (fd : Int) (table : List Nat) (wfd : Nat)
    (h : wfd ∉ table) : stopWatching fd table wfd = table := by
  simp [stopWatching, inotifyRmWatch, h]

/-- concrete instance of the C7 theorem. -/
theorem c7_witness : stopWatching 3 [1, 2] 5 = [1, 2] :=
  c7_unknown_handle_noop 3 [1, 2] 5 (by decide)

/-- Claim C8: release on an already invalid (negative) channel value
performs no operation: it issues no OS close call. -/
theorem c8_release_invalid_noop (fd : Int) (h : fd < 0) : release fd = [] := by
  unfold release
  rw [if_neg (by omega)]

/-- concrete instance of the C8 theorem. -/
theorem c8_witness : release (-1) = [] :=
  c8_release_invalid_noop (-1) (by decide)

/-- Claim C9: startWatching on a negative channel value returns -1 without
issuing the OS add-watch call, and its result does not depend on the path
argument; a handle can only come from the nonnegative branch. -/
theorem c9_addwatch_invalid_fd (osAdd : Int → List Nat → Nat → Int) (fd : Int)
    (path path2 : List Nat) (mask : Nat) (h : fd < 0) :
    startWatching osAdd fd path mask = (-1, []) ∧
    startWatching osAdd fd path mask = startWatching osAdd fd path2 mask := by
  have hn : ¬ (0 ≤ fd) := by omega
  constructor <;> simp [startWatching, hn]

/-- concrete instance of the C9 theorem. -/
theorem c9_witness : startWatching osAddConst (-2) [1] 0 = (-1, []) :=
  (c9_addwatch_invalid_fd osAddConst (-2) [1] [2] 0 (by decide)).1

/-- Claim C10 counterexample: a 16-byte read whose len field is 2^32 - 16
makes the computed 32-bit event_size 0, so the cursor never advances: with
fuel for two iterations the loop has already dispatched 2 events — more
than floor(16 / 16) = 1 — and still has not reached its exit guard. -/
theorem c10_counterexample :
    decodeBuf badBuf = ([⟨0, 0, some []⟩, ⟨0, 0, some []⟩], false) ∧
    badBuf.length / headerSize = 1 := by
  constructor
  · decide
  · decide

/-- Claim C10 as amended: for a buffer of length N at least one header, in
which every readable 32-bit len field keeps headerSize + len below 2^31
(so the signed 32-bit record size is positive), the inner decode loop
terminates through its guard and dispatches at most floor(N / headerSize)
events. -/
theorem c10_inner_loop_bounded (buf : List Nat) (h1 : headerSize ≤ buf.length)
    (h2 : ∀ p, p < buf.length → readU32 buf (p + 12) + headerSize < 2 ^ 31) :
    (decodeBuf buf).2 = true ∧
      (decodeBuf buf).1.length ≤ buf.length / headerSize := by
  have hhs : (headerSize : Nat) = 16 := rfl
  have hb := decodeLoop_bound buf (decodeFuel buf.length) (buf.length : Int) 0 h2
    (by norm_num) (by simp) (by simp only [decodeFuel, hhs]; omega)
  unfold decodeBuf
  refine ⟨hb.1, ?_⟩
  have h2b := hb.2
  simp only [hhs] at h2b ⊢
  omega

/-- concrete instance of the amended C10 theorem on an all-zero buffer. -/
theorem c10_witness :
    (decodeBuf zeroBuf).2 = true ∧
      (decodeBuf zeroBuf).1.length ≤ zeroBuf.length / headerSize :=
  c10_inner_loop_bounded zeroBuf (by decide) (by decide)

end FileObserver
